import Mathlib

/-!
Verification of the narrative-memory maintenance/retrieval engine.

This file gives a shallow embedding, in Lean 4, of the core algorithms of the
repository:

* `src/decay_scheduler.py` — `DecayConfig`, `DecayEngine.calculate_decay`,
  `DecayEngine.consolidate_memory`, `DecayEngine.run_decay_cycle`;
* `src/memory_store.py` — `FAISSRetriever.retrieve`,
  `retrieve_memories_from_ltm` (indexed path) and `_fallback_retrieve`
  (linear-scan path), together with the stable descending sort and
  truncation both paths perform.

Modelling conventions:

* Python floats are modelled as real numbers (`ℝ`); Python ints as `ℤ`/`ℕ`.
* A Python dict field that may be absent is modelled as an `Option`;
  `dict.get(key, default)` becomes `Option.getD`.
* The `datetime` parsing of the `timestamp` metadata field is external
  library behaviour; its three observable outcomes (missing/falsy value,
  parse failure, a parsed age in days) are modelled by the inductive
  `TsField`.
* The summarizer collaborator is a function `String → Option String`;
  `none` models the call raising an exception (caught by the engine),
  `some s` models a normal return of the string `s` (possibly empty).
* The backend used with the decay engine is the in-memory one
  (`InMemoryBackend` in `src/memory_backend.py` / `InMemoryBackendWrapper`
  in `src/app.py`): the store is a list of records, `get_all` returns a
  shallow copy (the records themselves are shared), `update` merges the
  record's own metadata dict back into the stored record, and `delete`
  removes the first record with the given id.  Because the iterated record
  objects alias the stored ones, the net effect of one loop iteration on
  the store is to replace (or delete) the record with that id, which is
  what `replaceById`/`deleteById` express.
* FAISS `index.search` output is external; it is passed to the model as the
  raw `(score, index)` rows the Python loop consumes.
-/

namespace NarrativeMemory

/-- Observable outcome of reading and parsing a record's `timestamp`
metadata field: the field is missing (or falsy), `datetime.fromisoformat`
raises, or parsing succeeds and the record is `age_days` days old. -/
inductive TsField
  | missing
  | unparsable
  | parsed (age_days : ℤ)
deriving DecidableEq

/-- The `metadata` dict of a memory record (fields the engine reads). -/
structure Metadata where
  importance_score : Option ℝ
  access_count : Option ℤ
  timestamp : TsField
  consolidated : Option Bool

/-- A memory record as passed around by the engine. -/
structure Memory where
  id : ℕ
  raw : String
  content_summary : String
  embedding : Option (List ℝ)
  metadata : Metadata

/-- `DecayConfig` from `src/decay_scheduler.py`. -/
structure DecayConfig where
  decay_rate : ℝ
  forget_threshold : ℝ
  consolidation_threshold : ℝ
  min_age_days : ℤ

/-- The default `DecayConfig(decay_rate=0.05, forget_threshold=0.2,
consolidation_threshold=0.4, min_age_days=1)`. -/
noncomputable def defaultConfig : DecayConfig :=
  { decay_rate := 5/100
    forget_threshold := 2/10
    consolidation_threshold := 4/10
    min_age_days := 1 }

/-- The effective stored importance score of a record:
`float(metadata.get("importance_score", 0.5))`. -/
noncomputable def storedScore (memory : Memory) : ℝ :=
  (memory.metadata.importance_score).getD (1/2)

/-- `DecayEngine.calculate_decay` (src/decay_scheduler.py lines 23-44):
missing or unparsable timestamps and records younger than `min_age_days`
keep their current score; otherwise
`max(0.0, min(1.0, initial_score * exp(-decay_rate * age_days / (log(access_count) + 1))))`
with `access_count = max(1, ...)`. -/
noncomputable def calculate_decay (cfg : DecayConfig) (memory : Memory) : ℝ :=
  let initial_score := storedScore memory
  let access_count : ℤ := max 1 ((memory.metadata.access_count).getD 1)
  match memory.metadata.timestamp with
  | .missing => initial_score
  | .unparsable => initial_score
  | .parsed age_days =>
    if age_days < cfg.min_age_days then initial_score
    else
      let new_score := initial_score *
        Real.exp (-cfg.decay_rate * (age_days : ℝ) / (Real.log (access_count : ℝ) + 1))
      max 0 (min 1 new_score)

/-- Python's `a or b` on two strings: `a` if non-empty, else `b`. -/
def pyOr (a b : String) : String :=
  if a = "" then b else a

/-- `DecayEngine.consolidate_memory` (src/decay_scheduler.py lines 46-63).
`summarizer_fn = none` models a missing summarizer; the inner `Option`
models the summarizer call raising (caught, record returned unchanged).
Note that a summarizer that returns normally — even with the empty
string — has its result written into `raw` and `content_summary` and the
`consolidated` flag set. -/
def consolidate_memory (summarizer_fn : Option (String → Option String))
    (memory : Memory) : Memory :=
  match summarizer_fn with
  | none => memory
  | some f =>
    let raw_text := pyOr memory.raw memory.content_summary
    if raw_text = "" then memory
    else
      match f raw_text with
      | none => memory
      | some gist =>
        { memory with
            content_summary := gist
            raw := gist
            metadata := { memory.metadata with consolidated := some true } }

/-- The aggregate counters returned by `run_decay_cycle`. -/
structure DecayStats where
  total : ℕ
  updated : ℕ
  consolidated : ℕ
  forgotten : ℕ
  errors : ℕ

/-- `backend.delete(mem_id)` on the in-memory backend: remove the first
record whose id matches. -/
def deleteById (memId : ℕ) : List Memory → List Memory
  | [] => []
  | m :: rest => if m.id = memId then rest else m :: deleteById memId rest

/-- Net effect on the in-memory store of mutating the (shared) record
object and merging its metadata back via `backend.update`: the first
record with the given id is replaced by the mutated record. -/
def replaceById (memId : ℕ) (newMem : Memory) : List Memory → List Memory
  | [] => []
  | m :: rest => if m.id = memId then newMem :: rest else m :: replaceById memId newMem rest

/-- `memory["metadata"]["importance_score"] = s` on a record. -/
noncomputable def setScore (memory : Memory) (s : ℝ) : Memory :=
  { memory with metadata := { memory.metadata with importance_score := some s } }

/-- One iteration of the `run_decay_cycle` loop
(src/decay_scheduler.py lines 78-106) acting on the current store and
stats, given the snapshot record `memory` being processed. -/
noncomputable def processOne (cfg : DecayConfig) (sf : Option (String → Option String))
    (acc : List Memory × DecayStats) (memory : Memory) : List Memory × DecayStats :=
  let old_score := storedScore memory
  let new_score := calculate_decay cfg memory
  if new_score < cfg.forget_threshold then
    (deleteById memory.id acc.1, { acc.2 with forgotten := acc.2.forgotten + 1 })
  else if new_score < cfg.consolidation_threshold then
    if (memory.metadata.consolidated).getD false = false then
      (replaceById memory.id (setScore (consolidate_memory sf memory) new_score) acc.1,
       { acc.2 with consolidated := acc.2.consolidated + 1, updated := acc.2.updated + 1 })
    else
      (replaceById memory.id (setScore memory new_score) acc.1,
       { acc.2 with updated := acc.2.updated + 1 })
  else
    if 1/100 < |new_score - old_score| then
      (replaceById memory.id (setScore memory new_score) acc.1,
       { acc.2 with updated := acc.2.updated + 1 })
    else acc

/-- `DecayEngine.run_decay_cycle` (src/decay_scheduler.py lines 65-109)
with a connected in-memory backend: fold the per-record processing over
the snapshot `backend.get_all()` (the store at entry), threading the
mutating store and the stats. -/
noncomputable def run_decay_cycle (cfg : DecayConfig)
    (sf : Option (String → Option String)) (store : List Memory) :
    List Memory × DecayStats :=
  store.foldl (processOne cfg sf)
    (store, { total := store.length, updated := 0, consolidated := 0, forgotten := 0, errors := 0 })

/-- The per-record outcome of one decay-cycle iteration: `none` when the
record is forgotten (deleted), `some m` when the record survives as `m`. -/
noncomputable def decayStep (cfg : DecayConfig) (sf : Option (String → Option String))
    (memory : Memory) : Option Memory :=
  let old_score := storedScore memory
  let new_score := calculate_decay cfg memory
  if new_score < cfg.forget_threshold then none
  else if new_score < cfg.consolidation_threshold then
    if (memory.metadata.consolidated).getD false = false then
      some (setScore (consolidate_memory sf memory) new_score)
    else some (setScore memory new_score)
  else if 1/100 < |new_score - old_score| then some (setScore memory new_score)
  else some memory

/-- The stats component of one decay-cycle iteration (it depends only on
the processed snapshot record, not on the store). -/
noncomputable def statsStep (cfg : DecayConfig) (stats : DecayStats) (memory : Memory) :
    DecayStats :=
  let old_score := storedScore memory
  let new_score := calculate_decay cfg memory
  if new_score < cfg.forget_threshold then { stats with forgotten := stats.forgotten + 1 }
  else if new_score < cfg.consolidation_threshold then
    if (memory.metadata.consolidated).getD false = false then
      { stats with consolidated := stats.consolidated + 1, updated := stats.updated + 1 }
    else { stats with updated := stats.updated + 1 }
  else if 1/100 < |new_score - old_score| then { stats with updated := stats.updated + 1 }
  else stats

lemma consolidate_memory_id (sf : Option (String → Option String)) (m : Memory) :
    (consolidate_memory sf m).id = m.id := by
  unfold consolidate_memory
  cases sf with
  | none => rfl
  | some f =>
    simp only
    split
    · rfl
    · cases f (pyOr m.raw m.content_summary) <;> rfl

lemma setScore_id (m : Memory) (s : ℝ) : (setScore m s).id = m.id := rfl

lemma decayStep_id {cfg : DecayConfig} {sf : Option (String → Option String)}
    {m m' : Memory} (h : decayStep cfg sf m = some m') : m'.id = m.id := by
  simp only [decayStep] at h
  split_ifs at h
  all_goals injection h with h
  all_goals subst h
  all_goals simp [setScore, consolidate_memory_id]

lemma deleteById_append_left {memId : ℕ} {l₁ l₂ : List Memory}
    (h : memId ∉ l₁.map Memory.id) :
    deleteById memId (l₁ ++ l₂) = l₁ ++ deleteById memId l₂ := by
  induction l₁ with
  | nil => rfl
  | cons a t ih =>
    simp only [List.map_cons, List.mem_cons, not_or] at h
    obtain ⟨h1, h2⟩ := h
    simp only [List.cons_append, deleteById]
    rw [if_neg (by exact fun hc => h1 hc.symm)]
    exact congrArg (a :: ·) (ih h2)

lemma replaceById_append_left {memId : ℕ} {nm : Memory} {l₁ l₂ : List Memory}
    (h : memId ∉ l₁.map Memory.id) :
    replaceById memId nm (l₁ ++ l₂) = l₁ ++ replaceById memId nm l₂ := by
  induction l₁ with
  | nil => rfl
  | cons a t ih =>
    simp only [List.map_cons, List.mem_cons, not_or] at h
    obtain ⟨h1, h2⟩ := h
    simp only [List.cons_append, replaceById]
    rw [if_neg (by exact fun hc => h1 hc.symm)]
    exact congrArg (a :: ·) (ih h2)

/-- Under distinct record ids, one decay cycle transforms the store into
the image of the snapshot under `decayStep` and accumulates the stats by
folding `statsStep`. -/
lemma foldl_processOne_eq (cfg : DecayConfig) (sf : Option (String → Option String)) :
    ∀ (ms pre : List Memory) (stats : DecayStats),
      (ms.map Memory.id).Nodup →
      (∀ m ∈ ms, m.id ∉ pre.map Memory.id) →
      ms.foldl (processOne cfg sf) (pre ++ ms, stats)
        = (pre ++ ms.filterMap (decayStep cfg sf), ms.foldl (statsStep cfg) stats)
  | [], pre, stats, _, _ => by simp
  | m :: rest, pre, stats, hnd, hpre => by
    have hmpre : m.id ∉ pre.map Memory.id := hpre m (List.mem_cons_self m rest)
    have hndrest : (rest.map Memory.id).Nodup := (List.nodup_cons.mp hnd).2
    have hmrest : ∀ x ∈ rest, x.id ≠ m.id := by
      intro x hx heq
      exact (List.nodup_cons.mp hnd).1 (heq ▸ List.mem_map_of_mem Memory.id hx)
    have hdel : deleteById m.id (pre ++ m :: rest) = pre ++ rest := by
      rw [deleteById_append_left hmpre]
      simp [deleteById]
    have hrep : ∀ nm : Memory, replaceById m.id nm (pre ++ m :: rest) = pre ++ nm :: rest := by
      intro nm
      rw [replaceById_append_left hmpre]
      simp [replaceById]
    have survive : ∀ m' : Memory, m'.id = m.id →
        processOne cfg sf (pre ++ m :: rest, stats) m = (pre ++ m' :: rest, statsStep cfg stats m) →
        decayStep cfg sf m = some m' →
        (m :: rest).foldl (processOne cfg sf) (pre ++ m :: rest, stats)
          = (pre ++ (m :: rest).filterMap (decayStep cfg sf),
             (m :: rest).foldl (statsStep cfg) stats) := by
      intro m' hid hproc hstep
      have hdisj : ∀ x ∈ rest, x.id ∉ (pre ++ [m']).map Memory.id := by
        intro x hx
        simp only [List.map_append, List.mem_append, List.map_cons, List.map_nil,
          List.mem_singleton]
        rintro (hc | hc)
        · exact hpre x (List.mem_cons_of_mem m hx) hc
        · exact hmrest x hx (hc.trans hid)
      have hrec := foldl_processOne_eq cfg sf rest (pre ++ [m']) (statsStep cfg stats m)
        hndrest hdisj
      simp only [List.append_assoc, List.singleton_append] at hrec
      simp only [List.foldl_cons, hproc, hrec, List.filterMap_cons, hstep]
    by_cases h1 : calculate_decay cfg m < cfg.forget_threshold
    · have hstore : processOne cfg sf (pre ++ m :: rest, stats) m
          = (pre ++ rest, statsStep cfg stats m) := by
        simp only [processOne, statsStep, if_pos h1, hdel]
      have hstep : decayStep cfg sf m = none := by
        simp only [decayStep, if_pos h1]
      simp only [List.foldl_cons, hstore, List.filterMap_cons, hstep]
      exact foldl_processOne_eq cfg sf rest pre (statsStep cfg stats m) hndrest
        (fun x hx => hpre x (List.mem_cons_of_mem m hx))
    · by_cases h2 : calculate_decay cfg m < cfg.consolidation_threshold
      · by_cases h3 : (m.metadata.consolidated).getD false = false
        · refine survive (setScore (consolidate_memory sf m) (calculate_decay cfg m))
            ((setScore_id _ _).trans (consolidate_memory_id sf m)) ?_ ?_
          · simp only [processOne, statsStep, if_neg h1, if_pos h2, if_pos h3, hrep]
          · simp only [decayStep, if_neg h1, if_pos h2, if_pos h3]
        · refine survive (setScore m (calculate_decay cfg m)) (setScore_id _ _) ?_ ?_
          · simp only [processOne, statsStep, if_neg h1, if_pos h2, if_neg h3, hrep]
          · simp only [decayStep, if_neg h1, if_pos h2, if_neg h3]
      · by_cases h4 : 1/100 < |calculate_decay cfg m - storedScore m|
        · refine survive (setScore m (calculate_decay cfg m)) (setScore_id _ _) ?_ ?_
          · simp only [processOne, statsStep, if_neg h1, if_neg h2, if_pos h4, hrep]
          · simp only [decayStep, if_neg h1, if_neg h2, if_pos h4]
        · refine survive m rfl ?_ ?_
          · simp only [processOne, statsStep, if_neg h1, if_neg h2, if_neg h4]
          · simp only [decayStep, if_neg h1, if_neg h2, if_neg h4]

/-- `run_decay_cycle` under distinct record ids: the final store is the
snapshot filtered and mapped through `decayStep`, the stats the fold of
`statsStep`. -/
lemma run_decay_cycle_eq (cfg : DecayConfig) (sf : Option (String → Option String))
    (store : List Memory) (hnd : (store.map Memory.id).Nodup) :
    run_decay_cycle cfg sf store
      = (store.filterMap (decayStep cfg sf),
         store.foldl (statsStep cfg)
           { total := store.length, updated := 0, consolidated := 0,
             forgotten := 0, errors := 0 }) := by
  have h := foldl_processOne_eq cfg sf store []
    { total := store.length, updated := 0, consolidated := 0, forgotten := 0, errors := 0 }
    hnd (by simp)
  simpa [run_decay_cycle] using h

lemma calculate_decay_missing {cfg : DecayConfig} {m : Memory}
    (h : m.metadata.timestamp = .missing) :
    calculate_decay cfg m = storedScore m := by
  simp only [calculate_decay, h]

lemma calculate_decay_unparsable {cfg : DecayConfig} {m : Memory}
    (h : m.metadata.timestamp = .unparsable) :
    calculate_decay cfg m = storedScore m := by
  simp only [calculate_decay, h]

lemma calculate_decay_young {cfg : DecayConfig} {m : Memory} {d : ℤ}
    (h : m.metadata.timestamp = .parsed d) (hd : d < cfg.min_age_days) :
    calculate_decay cfg m = storedScore m := by
  simp only [calculate_decay, h]
  rw [if_pos hd]

lemma calculate_decay_old {cfg : DecayConfig} {m : Memory} {d : ℤ}
    (h : m.metadata.timestamp = .parsed d) (hd : ¬ d < cfg.min_age_days) :
    calculate_decay cfg m
      = max 0 (min 1 (storedScore m * Real.exp (-cfg.decay_rate * (d : ℝ) /
          (Real.log ((max 1 ((m.metadata.access_count).getD 1) : ℤ) : ℝ) + 1)))) := by
  simp only [calculate_decay, h]
  rw [if_neg hd]

/-- The denominator `log(max(1, access_count)) + 1` is at least `1`. -/
lemma one_le_decay_denom (m : Memory) :
    1 ≤ Real.log ((max 1 ((m.metadata.access_count).getD 1) : ℤ) : ℝ) + 1 := by
  have h1 : (1 : ℝ) ≤ ((max 1 ((m.metadata.access_count).getD 1) : ℤ) : ℝ) := by
    exact_mod_cast le_max_left 1 ((m.metadata.access_count).getD 1)
  linarith [Real.log_nonneg h1]

/-- The decay exponent is nonpositive for a nonnegative rate and age. -/
lemma decay_exponent_nonpos {cfg : DecayConfig} (m : Memory) {d : ℤ}
    (hr : 0 ≤ cfg.decay_rate) (hd : 0 ≤ d) :
    -cfg.decay_rate * (d : ℝ) /
      (Real.log ((max 1 ((m.metadata.access_count).getD 1) : ℤ) : ℝ) + 1) ≤ 0 := by
  have hd' : (0 : ℝ) ≤ (d : ℝ) := by exact_mod_cast hd
  have hnum : -cfg.decay_rate * (d : ℝ) ≤ 0 := by
    have := mul_nonneg hr hd'
    nlinarith
  have hden : (0 : ℝ) ≤ Real.log ((max 1 ((m.metadata.access_count).getD 1) : ℤ) : ℝ) + 1 := by
    linarith [one_le_decay_denom m]
  exact div_nonpos_iff.mpr (Or.inr ⟨hnum, hden⟩)

lemma clamp_le_clamp {x y : ℝ} (h : x ≤ y) : max 0 (min 1 x) ≤ max 0 (min 1 y) :=
  max_le_max le_rfl (min_le_min le_rfl h)

lemma clamp_nonneg (x : ℝ) : 0 ≤ max 0 (min 1 x) := le_max_left 0 _

lemma clamp_le_one (x : ℝ) : max 0 (min 1 x) ≤ 1 :=
  max_le zero_le_one (min_le_left 1 x)

/-- C10 core: once the record reaches the recomputation formula, the
clamped result never exceeds a stored score that lies in `[0,1]`. -/
lemma calculate_decay_le_storedScore {cfg : DecayConfig} {m : Memory}
    (hr : 0 ≤ cfg.decay_rate) (hmin : 0 ≤ cfg.min_age_days)
    (h0 : 0 ≤ storedScore m) (h1 : storedScore m ≤ 1) :
    calculate_decay cfg m ≤ storedScore m := by
  cases hts : m.metadata.timestamp with
  | missing => rw [calculate_decay_missing hts]
  | unparsable => rw [calculate_decay_unparsable hts]
  | parsed d =>
    by_cases hd : d < cfg.min_age_days
    · rw [calculate_decay_young hts hd]
    · rw [calculate_decay_old hts hd]
      have hd0 : (0 : ℤ) ≤ d := le_trans hmin (not_lt.mp hd)
      have hexp : Real.exp (-cfg.decay_rate * (d : ℝ) /
          (Real.log ((max 1 ((m.metadata.access_count).getD 1) : ℤ) : ℝ) + 1)) ≤ 1 :=
        Real.exp_le_one_iff.mpr (decay_exponent_nonpos m hr hd0)
      have hx : storedScore m * Real.exp (-cfg.decay_rate * (d : ℝ) /
          (Real.log ((max 1 ((m.metadata.access_count).getD 1) : ℤ) : ℝ) + 1))
            ≤ storedScore m := by
        nlinarith [Real.exp_pos (-cfg.decay_rate * (d : ℝ) /
          (Real.log ((max 1 ((m.metadata.access_count).getD 1) : ℤ) : ℝ) + 1))]
      have hx0 : 0 ≤ storedScore m * Real.exp (-cfg.decay_rate * (d : ℝ) /
          (Real.log ((max 1 ((m.metadata.access_count).getD 1) : ℤ) : ℝ) + 1)) :=
        mul_nonneg h0 (Real.exp_pos _).le
      rw [min_eq_right (le_trans hx h1), max_eq_right hx0]
      exact hx

/-- C10: for a record whose stored `importance_score` lies in `[0,1]` and a
configuration with `decay_rate ≥ 0` and `min_age_days ≥ 0`, the score
recomputation `calculate_decay` never exceeds the current stored score,
with equality whenever the record is too young to decay or its timestamp
is missing or unparsable. -/
theorem decay_never_increases_score (cfg : DecayConfig) (m : Memory)
    (hr : 0 ≤ cfg.decay_rate) (hmin : 0 ≤ cfg.min_age_days)
    (h0 : 0 ≤ storedScore m) (h1 : storedScore m ≤ 1) :
    calculate_decay cfg m ≤ storedScore m ∧
      ((m.metadata.timestamp = .missing ∨ m.metadata.timestamp = .unparsable ∨
        ∃ d, m.metadata.timestamp = .parsed d ∧ d < cfg.min_age_days) →
        calculate_decay cfg m = storedScore m) := by
  refine ⟨calculate_decay_le_storedScore hr hmin h0 h1, ?_⟩
  rintro (h | h | ⟨d, h, hd⟩)
  · exact calculate_decay_missing h
  · exact calculate_decay_unparsable h
  · exact calculate_decay_young h hd

/-- Concrete record used to instantiate `decay_never_increases_score`. -/
noncomputable def memW10 : Memory :=
  { id := 10, raw := "r", content_summary := "s", embedding := none,
    metadata := { importance_score := some (7/10), access_count := some 3,
                  timestamp := .parsed 4, consolidated := some false } }

theorem decay_never_increases_score_witness :
    0 ≤ defaultConfig.decay_rate ∧ 0 ≤ defaultConfig.min_age_days ∧
    0 ≤ storedScore memW10 ∧ storedScore memW10 ≤ 1 ∧
    calculate_decay defaultConfig memW10 ≤ storedScore memW10 :=
  ⟨by norm_num [defaultConfig], by norm_num [defaultConfig],
   by norm_num [storedScore, memW10], by norm_num [storedScore, memW10],
   (decay_never_increases_score defaultConfig memW10 (by norm_num [defaultConfig])
     (by norm_num [defaultConfig]) (by norm_num [storedScore, memW10])
     (by norm_num [storedScore, memW10])).1⟩

/-- C5: with a nonnegative decay rate and minimum age, two records with the
same timestamp and the same stored score decay no faster for the record
with the larger access count: `a₁ > a₂ ≥ 1` gives
`calculate_decay m₂ ≤ calculate_decay m₁`. -/
theorem decay_access_count_monotone (cfg : DecayConfig) (m₁ m₂ : Memory) (a₁ a₂ : ℤ)
    (ha₁ : m₁.metadata.access_count = some a₁) (ha₂ : m₂.metadata.access_count = some a₂)
    (hts : m₁.metadata.timestamp = m₂.metadata.timestamp)
    (hsc : m₁.metadata.importance_score = m₂.metadata.importance_score)
    (hr : 0 ≤ cfg.decay_rate) (hmin : 0 ≤ cfg.min_age_days)
    (h1 : 1 ≤ a₂) (h12 : a₂ < a₁) :
    calculate_decay cfg m₂ ≤ calculate_decay cfg m₁ := by
  have hstored : storedScore m₁ = storedScore m₂ := by
    simp [storedScore, hsc]
  cases hts2 : m₂.metadata.timestamp with
  | missing =>
    rw [calculate_decay_missing hts2, calculate_decay_missing (hts.trans hts2), hstored]
  | unparsable =>
    rw [calculate_decay_unparsable hts2, calculate_decay_unparsable (hts.trans hts2), hstored]
  | parsed d =>
    by_cases hd : d < cfg.min_age_days
    · rw [calculate_decay_young hts2 hd, calculate_decay_young (hts.trans hts2) hd, hstored]
    · rw [calculate_decay_old hts2 hd, calculate_decay_old (hts.trans hts2) hd, hstored,
        ha₁, ha₂]
      simp only [Option.getD_some]
      rw [max_eq_right h1, max_eq_right (le_trans h1 h12.le)]
      set s := storedScore m₂ with hs
      have hd0 : (0 : ℝ) ≤ (d : ℝ) := by
        exact_mod_cast le_trans hmin (not_lt.mp hd)
      have hN : 0 ≤ cfg.decay_rate * (d : ℝ) := mul_nonneg hr hd0
      have ha2R : (1 : ℝ) ≤ (a₂ : ℝ) := by exact_mod_cast h1
      have ha1R : (a₂ : ℝ) ≤ (a₁ : ℝ) := by exact_mod_cast h12.le
      have hD2 : (0 : ℝ) < Real.log (a₂ : ℝ) + 1 := by
        linarith [Real.log_nonneg ha2R]
      have hD1 : (0 : ℝ) < Real.log (a₁ : ℝ) + 1 := by
        linarith [Real.log_nonneg (le_trans ha2R ha1R)]
      have hDle : Real.log (a₂ : ℝ) + 1 ≤ Real.log (a₁ : ℝ) + 1 := by
        have := (Real.log_le_log_iff (by linarith) (by linarith)).mpr ha1R
        linarith
      have hediv : cfg.decay_rate * (d : ℝ) / (Real.log (a₁ : ℝ) + 1)
          ≤ cfg.decay_rate * (d : ℝ) / (Real.log (a₂ : ℝ) + 1) := by
        rw [div_le_div_iff₀ hD1 hD2]
        exact mul_le_mul_of_nonneg_left hDle hN
      have hexp : Real.exp (-cfg.decay_rate * (d : ℝ) / (Real.log (a₂ : ℝ) + 1))
          ≤ Real.exp (-cfg.decay_rate * (d : ℝ) / (Real.log (a₁ : ℝ) + 1)) := by
        apply Real.exp_le_exp.mpr
        rw [neg_mul, neg_div, neg_div, neg_le_neg_iff]
        exact hediv
      by_cases hsn : 0 ≤ s
      · exact clamp_le_clamp (mul_le_mul_of_nonneg_left hexp hsn)
      · push_neg at hsn
        have hx2 : s * Real.exp (-cfg.decay_rate * (d : ℝ) / (Real.log (a₂ : ℝ) + 1)) ≤ 0 :=
          (mul_nonpos_iff.mpr (Or.inr ⟨hsn.le, (Real.exp_pos _).le⟩))
        have hx1 : s * Real.exp (-cfg.decay_rate * (d : ℝ) / (Real.log (a₁ : ℝ) + 1)) ≤ 0 :=
          (mul_nonpos_iff.mpr (Or.inr ⟨hsn.le, (Real.exp_pos _).le⟩))
        rw [max_eq_left (le_trans (min_le_right _ _) hx2),
          max_eq_left (le_trans (min_le_right _ _) hx1)]

/-- Concrete records used to instantiate `decay_access_count_monotone`:
same score and age, access counts 5 and 2. -/
noncomputable def memW5a : Memory :=
  { id := 51, raw := "r", content_summary := "s", embedding := none,
    metadata := { importance_score := some (8/10), access_count := some 5,
                  timestamp := .parsed 3, consolidated := some false } }

/-- Companion record to `memW5a` with the smaller access count. -/
noncomputable def memW5b : Memory :=
  { id := 52, raw := "r", content_summary := "s", embedding := none,
    metadata := { importance_score := some (8/10), access_count := some 2,
                  timestamp := .parsed 3, consolidated := some false } }

theorem decay_access_count_monotone_witness :
    memW5a.metadata.access_count = some 5 ∧ memW5b.metadata.access_count = some 2 ∧
    memW5a.metadata.timestamp = memW5b.metadata.timestamp ∧
    memW5a.metadata.importance_score = memW5b.metadata.importance_score ∧
    (1 : ℤ) ≤ 2 ∧ (2 : ℤ) < 5 ∧
    calculate_decay defaultConfig memW5b ≤ calculate_decay defaultConfig memW5a :=
  ⟨rfl, rfl, rfl, rfl, by norm_num, by norm_num,
   decay_access_count_monotone defaultConfig memW5a memW5b 5 2 rfl rfl rfl rfl
     (by norm_num [defaultConfig]) (by norm_num [defaultConfig]) (by norm_num) (by norm_num)⟩

lemma mem_deleteById {r : Memory} {memId : ℕ} :
    ∀ {l : List Memory}, r ∈ deleteById memId l → r ∈ l
  | [], h => h
  | m :: rest, h => by
    simp only [deleteById] at h
    split_ifs at h with hc
    · exact List.mem_cons_of_mem m h
    · rcases List.mem_cons.mp h with h | h
      · exact h ▸ List.mem_cons_self m rest
      · exact List.mem_cons_of_mem m (mem_deleteById h)

lemma mem_replaceById {r nm : Memory} {memId : ℕ} :
    ∀ {l : List Memory}, r ∈ replaceById memId nm l → r ∈ l ∨ r = nm
  | [], h => absurd h (List.not_mem_nil r)
  | m :: rest, h => by
    simp only [replaceById] at h
    split_ifs at h with hc
    · rcases List.mem_cons.mp h with h | h
      · exact Or.inr h
      · exact Or.inl (List.mem_cons_of_mem m h)
    · rcases List.mem_cons.mp h with h | h
      · exact Or.inl (h ▸ List.mem_cons_self m rest)
      · rcases mem_replaceById h with h | h
        · exact Or.inl (List.mem_cons_of_mem m h)
        · exact Or.inr h

lemma storedScore_setScore (m : Memory) (s : ℝ) : storedScore (setScore m s) = s := by
  simp [storedScore, setScore]

/-- Whatever the configuration, `calculate_decay` maps a stored score in
`[0,1]` to a result in `[0,1]`: the formula branch clamps, the early
returns hand the stored score back. -/
lemma calculate_decay_bounds {cfg : DecayConfig} {m : Memory}
    (h0 : 0 ≤ storedScore m) (h1 : storedScore m ≤ 1) :
    0 ≤ calculate_decay cfg m ∧ calculate_decay cfg m ≤ 1 := by
  cases hts : m.metadata.timestamp with
  | missing => rw [calculate_decay_missing hts]; exact ⟨h0, h1⟩
  | unparsable => rw [calculate_decay_unparsable hts]; exact ⟨h0, h1⟩
  | parsed d =>
    by_cases hd : d < cfg.min_age_days
    · rw [calculate_decay_young hts hd]; exact ⟨h0, h1⟩
    · rw [calculate_decay_old hts hd]; exact ⟨clamp_nonneg _, clamp_le_one _⟩

/-- The loop of `run_decay_cycle` keeps every stored score in `[0,1]` when
the snapshot's scores lie in `[0,1]` (no id hypotheses needed). -/
lemma foldl_processOne_score_bounds (cfg : DecayConfig)
    (sf : Option (String → Option String)) :
    ∀ (ms : List Memory),
      (∀ m ∈ ms, 0 ≤ storedScore m ∧ storedScore m ≤ 1) →
      ∀ (cur : List Memory) (stats : DecayStats),
        (∀ r ∈ cur, 0 ≤ storedScore r ∧ storedScore r ≤ 1) →
        ∀ r ∈ (ms.foldl (processOne cfg sf) (cur, stats)).1,
          0 ≤ storedScore r ∧ storedScore r ≤ 1
  | [], _, cur, stats, hcur, r, hr => hcur r hr
  | m :: rest, hms, cur, stats, hcur, r, hr => by
    have hm := hms m (List.mem_cons_self m rest)
    have hrest : ∀ x ∈ rest, 0 ≤ storedScore x ∧ storedScore x ≤ 1 :=
      fun x hx => hms x (List.mem_cons_of_mem m hx)
    rw [List.foldl_cons] at hr
    rcases hps : processOne cfg sf (cur, stats) m with ⟨cur', stats'⟩
    rw [hps] at hr
    refine foldl_processOne_score_bounds cfg sf rest hrest cur' stats' ?_ r hr
    intro x hx
    have hcalc := @calculate_decay_bounds cfg m hm.1 hm.2
    simp only [processOne] at hps
    split_ifs at hps <;> injection hps with hps1 hps2 <;> subst hps1
    · exact hcur x (mem_deleteById hx)
    · rcases mem_replaceById hx with hmem | hmem
      · exact hcur x hmem
      · rw [hmem, storedScore_setScore]
        exact hcalc
    · rcases mem_replaceById hx with hmem | hmem
      · exact hcur x hmem
      · rw [hmem, storedScore_setScore]
        exact hcalc
    · rcases mem_replaceById hx with hmem | hmem
      · exact hcur x hmem
      · rw [hmem, storedScore_setScore]
        exact hcalc
    · exact hcur x hx

/-- C1: after a decay cycle every record still in the store has its
`importance_score` in `[0,1]` (given that scores entered the cycle in
`[0,1]`, which ingestion and the schema guarantee), and the recomputation
clamps its result to `[0,1]` unconditionally for every record that reaches
the decay formula. -/
theorem decay_cycle_preserves_unit_interval (cfg : DecayConfig)
    (sf : Option (String → Option String)) (store : List Memory)
    (h : ∀ m ∈ store, 0 ≤ storedScore m ∧ storedScore m ≤ 1) :
    (∀ r ∈ (run_decay_cycle cfg sf store).1,
        0 ≤ storedScore r ∧ storedScore r ≤ 1) ∧
    (∀ (m : Memory) (d : ℤ), m.metadata.timestamp = .parsed d →
        ¬ d < cfg.min_age_days →
        0 ≤ calculate_decay cfg m ∧ calculate_decay cfg m ≤ 1) := by
  constructor
  · intro r hr
    exact foldl_processOne_score_bounds cfg sf store h store _ h r hr
  · intro m d hts hd
    rw [calculate_decay_old hts hd]
    exact ⟨clamp_nonneg _, clamp_le_one _⟩

theorem decay_cycle_preserves_unit_interval_witness :
    (∀ m ∈ [memW10], 0 ≤ storedScore m ∧ storedScore m ≤ 1) ∧
    (∀ r ∈ (run_decay_cycle defaultConfig none [memW10]).1,
        0 ≤ storedScore r ∧ storedScore r ≤ 1) := by
  have hscores : ∀ m ∈ [memW10], 0 ≤ storedScore m ∧ storedScore m ≤ 1 := by
    intro m hm
    rw [List.mem_singleton] at hm
    subst hm
    norm_num [storedScore, memW10]
  exact ⟨hscores,
    (decay_cycle_preserves_unit_interval defaultConfig none [memW10] hscores).1⟩

/-- The record of the spec's "too young to decay" scenario: score `0.5`,
age `0` days, `access_count = 1`. -/
noncomputable def memScenario4 : Memory :=
  { id := 40, raw := "story", content_summary := "story", embedding := none,
    metadata := { importance_score := some (1/2), access_count := some 1,
                  timestamp := .parsed 0, consolidated := none } }

/-- C4: a record whose timestamp is missing or unparsable, or whose age is
below `min_age_days`, keeps its current score under the recomputation; in
particular the scenario record (score `0.5`, age `0`, `access_count 1`,
default configuration) is untouched by a whole decay cycle. -/
theorem decay_young_or_missing_timestamp_unchanged (cfg : DecayConfig) (m : Memory)
    (h : m.metadata.timestamp = .missing ∨ m.metadata.timestamp = .unparsable ∨
         ∃ d, m.metadata.timestamp = .parsed d ∧ d < cfg.min_age_days) :
    calculate_decay cfg m = storedScore m ∧
    run_decay_cycle defaultConfig none [memScenario4]
      = ([memScenario4],
         { total := 1, updated := 0, consolidated := 0, forgotten := 0, errors := 0 }) := by
  constructor
  · rcases h with h | h | ⟨d, h, hd⟩
    · exact calculate_decay_missing h
    · exact calculate_decay_unparsable h
    · exact calculate_decay_young h hd
  · have hcalc : calculate_decay defaultConfig memScenario4 = 1/2 := by
      rw [@calculate_decay_young defaultConfig memScenario4 0 rfl
        (by norm_num [defaultConfig])]
      norm_num [storedScore, memScenario4]
    have hstored : storedScore memScenario4 = 1/2 := by
      norm_num [storedScore, memScenario4]
    simp only [run_decay_cycle, List.foldl_cons, List.foldl_nil, List.length_singleton,
      processOne, hcalc, hstored]
    rw [if_neg (by norm_num [defaultConfig]), if_neg (by norm_num [defaultConfig]),
      if_neg (by norm_num)]

/-- Concrete missing-timestamp record instantiating
`decay_young_or_missing_timestamp_unchanged`. -/
noncomputable def memW4 : Memory :=
  { id := 41, raw := "r", content_summary := "s", embedding := none,
    metadata := { importance_score := some (9/10), access_count := some 2,
                  timestamp := .missing, consolidated := some false } }

theorem decay_young_or_missing_timestamp_unchanged_witness :
    (memW4.metadata.timestamp = .missing ∨ memW4.metadata.timestamp = .unparsable ∨
      ∃ d, memW4.metadata.timestamp = .parsed d ∧ d < defaultConfig.min_age_days) ∧
    calculate_decay defaultConfig memW4 = storedScore memW4 :=
  ⟨Or.inl rfl,
   (decay_young_or_missing_timestamp_unchanged defaultConfig memW4 (Or.inl rfl)).1⟩

lemma decayStep_eq_none_iff {cfg : DecayConfig} {sf : Option (String → Option String)}
    {m : Memory} :
    decayStep cfg sf m = none ↔ calculate_decay cfg m < cfg.forget_threshold := by
  simp only [decayStep]
  split_ifs with h1 h2 h3 h4 <;> simp [h1]

lemma decayStep_isSome_of_not_forget {cfg : DecayConfig}
    {sf : Option (String → Option String)} {m : Memory}
    (h : ¬ calculate_decay cfg m < cfg.forget_threshold) :
    ∃ m', decayStep cfg sf m = some m' := by
  simp only [decayStep, if_neg h]
  split_ifs <;> exact ⟨_, rfl⟩

/-- Forgotten-count bookkeeping: each snapshot record contributes `1` to
`forgotten` exactly when its `decayStep` is `none`. -/
lemma foldl_statsStep_forgotten (cfg : DecayConfig)
    (sf : Option (String → Option String)) :
    ∀ (ms : List Memory) (stats : DecayStats),
      (ms.foldl (statsStep cfg) stats).forgotten + (ms.filterMap (decayStep cfg sf)).length
        = stats.forgotten + ms.length
  | [], stats => by simp
  | m :: rest, stats => by
    rw [List.foldl_cons]
    by_cases h1 : calculate_decay cfg m < cfg.forget_threshold
    · have h0 : decayStep cfg sf m = none := decayStep_eq_none_iff.mpr h1
      have hf : (statsStep cfg stats m).forgotten = stats.forgotten + 1 := by
        simp only [statsStep, if_pos h1]
      have hrec := foldl_statsStep_forgotten cfg sf rest (statsStep cfg stats m)
      simp only [List.filterMap_cons, h0, List.length_cons]
      omega
    · obtain ⟨m', hm'⟩ := @decayStep_isSome_of_not_forget cfg sf m h1
      have hf : (statsStep cfg stats m).forgotten = stats.forgotten := by
        simp only [statsStep, if_neg h1]
        split_ifs <;> rfl
      have hrec := foldl_statsStep_forgotten cfg sf rest (statsStep cfg stats m)
      simp only [List.filterMap_cons, hm', List.length_cons]
      omega

/-- C2: in a decay cycle over a store with distinct ids, every record whose
recomputed score falls strictly below `forget_threshold` is absent from the
store when the cycle returns, every other record survives, and the
forgotten counter accounts exactly for the deleted records. -/
theorem decay_cycle_forgets_low_scores (cfg : DecayConfig)
    (sf : Option (String → Option String)) (store : List Memory)
    (hnd : (store.map Memory.id).Nodup) :
    (∀ m ∈ store, calculate_decay cfg m < cfg.forget_threshold →
        m.id ∉ (run_decay_cycle cfg sf store).1.map Memory.id) ∧
    (∀ m ∈ store, ¬ calculate_decay cfg m < cfg.forget_threshold →
        m.id ∈ (run_decay_cycle cfg sf store).1.map Memory.id) ∧
    (run_decay_cycle cfg sf store).2.forgotten + (run_decay_cycle cfg sf store).1.length
      = store.length := by
  rw [run_decay_cycle_eq cfg sf store hnd]
  refine ⟨?_, ?_, ?_⟩
  · intro m hm hlow hmem
    simp only [List.mem_map] at hmem
    obtain ⟨r, hr, hid⟩ := hmem
    rw [List.mem_filterMap] at hr
    obtain ⟨m₂, hm₂, hstep⟩ := hr
    have hrid : r.id = m₂.id := decayStep_id hstep
    have hmm : m₂ = m := List.inj_on_of_nodup_map hnd hm₂ hm (by rw [← hrid, hid])
    subst hmm
    rw [decayStep_eq_none_iff.mpr hlow] at hstep
    exact Option.noConfusion hstep
  · intro m hm hhigh
    obtain ⟨m', hm'⟩ := @decayStep_isSome_of_not_forget cfg sf m hhigh
    exact List.mem_map.mpr ⟨m', List.mem_filterMap.mpr ⟨m, hm, hm'⟩, decayStep_id hm'⟩
  · simpa using foldl_statsStep_forgotten cfg sf store
      { total := store.length, updated := 0, consolidated := 0, forgotten := 0, errors := 0 }

/-- The record of the spec's forget scenario: score `0.15`, below the
default `forget_threshold = 0.20`. -/
noncomputable def memW2 : Memory :=
  { id := 2, raw := "old tale", content_summary := "old tale", embedding := none,
    metadata := { importance_score := some (15/100), access_count := some 1,
                  timestamp := .missing, consolidated := some false } }

theorem decay_cycle_forgets_low_scores_witness :
    ([memW2].map Memory.id).Nodup ∧
    calculate_decay defaultConfig memW2 < defaultConfig.forget_threshold ∧
    memW2.id ∉ (run_decay_cycle defaultConfig none [memW2]).1.map Memory.id ∧
    (run_decay_cycle defaultConfig none [memW2]).2.forgotten
      + (run_decay_cycle defaultConfig none [memW2]).1.length = 1 := by
  have hlow : calculate_decay defaultConfig memW2 < defaultConfig.forget_threshold := by
    rw [@calculate_decay_missing defaultConfig memW2 rfl]
    norm_num [storedScore, memW2, defaultConfig]
  refine ⟨by simp, hlow, ?_, ?_⟩
  · exact (decay_cycle_forgets_low_scores defaultConfig none [memW2] (by simp)).1 memW2
      (List.mem_singleton_self memW2) hlow
  · simpa using (decay_cycle_forgets_low_scores defaultConfig none [memW2] (by simp)).2.2

/-- C9: in the retain branch (recomputed score at or above
`consolidation_threshold`, with `forget_threshold ≤ consolidation_threshold`),
the cycle persists the new score exactly when it moved by more than `0.01`
from the old score, and otherwise leaves the record entirely unchanged —
for a single-record store even the `updated` counter stays `0`. -/
theorem retain_branch_write_iff_moved (cfg : DecayConfig)
    (sf : Option (String → Option String)) (store : List Memory)
    (hnd : (store.map Memory.id).Nodup)
    (hth : cfg.forget_threshold ≤ cfg.consolidation_threshold)
    (m : Memory) (hm : m ∈ store)
    (hret : cfg.consolidation_threshold ≤ calculate_decay cfg m) :
    (1/100 < |calculate_decay cfg m - storedScore m| →
        setScore m (calculate_decay cfg m) ∈ (run_decay_cycle cfg sf store).1) ∧
    (¬ 1/100 < |calculate_decay cfg m - storedScore m| →
        m ∈ (run_decay_cycle cfg sf store).1) ∧
    (∀ m' : Memory, cfg.consolidation_threshold ≤ calculate_decay cfg m' →
        ¬ 1/100 < |calculate_decay cfg m' - storedScore m'| →
        run_decay_cycle cfg sf [m']
          = ([m'], { total := 1, updated := 0, consolidated := 0,
                     forgotten := 0, errors := 0 })) := by
  have h1 : ¬ calculate_decay cfg m < cfg.forget_threshold :=
    not_lt.mpr (le_trans hth hret)
  have h2 : ¬ calculate_decay cfg m < cfg.consolidation_threshold := not_lt.mpr hret
  rw [run_decay_cycle_eq cfg sf store hnd]
  refine ⟨?_, ?_, ?_⟩
  · intro hmoved
    have hstep : decayStep cfg sf m = some (setScore m (calculate_decay cfg m)) := by
      simp only [decayStep, if_neg h1, if_neg h2, if_pos hmoved]
    exact List.mem_filterMap.mpr ⟨m, hm, hstep⟩
  · intro hsmall
    have hstep : decayStep cfg sf m = some m := by
      simp only [decayStep, if_neg h1, if_neg h2, if_neg hsmall]
    exact List.mem_filterMap.mpr ⟨m, hm, hstep⟩
  · intro m' hret' hsmall'
    have h1' : ¬ calculate_decay cfg m' < cfg.forget_threshold :=
      not_lt.mpr (le_trans hth hret')
    have h2' : ¬ calculate_decay cfg m' < cfg.consolidation_threshold := not_lt.mpr hret'
    simp only [run_decay_cycle, List.foldl_cons, List.foldl_nil, List.length_singleton,
      processOne]
    rw [if_neg h1', if_neg h2', if_neg hsmall']

/-- Retained record used to instantiate `retain_branch_write_iff_moved`:
its recomputed score equals its stored score `0.5`, so no write happens. -/
noncomputable def memW9 : Memory :=
  { id := 9, raw := "keep", content_summary := "keep", embedding := none,
    metadata := { importance_score := some (1/2), access_count := some 1,
                  timestamp := .missing, consolidated := some false } }

theorem retain_branch_write_iff_moved_witness :
    ([memW9].map Memory.id).Nodup ∧
    defaultConfig.forget_threshold ≤ defaultConfig.consolidation_threshold ∧
    defaultConfig.consolidation_threshold ≤ calculate_decay defaultConfig memW9 ∧
    ¬ 1/100 < |calculate_decay defaultConfig memW9 - storedScore memW9| ∧
    memW9 ∈ (run_decay_cycle defaultConfig none [memW9]).1 := by
  have hcalc : calculate_decay defaultConfig memW9 = 1/2 := by
    rw [@calculate_decay_missing defaultConfig memW9 rfl]
    norm_num [storedScore, memW9]
  have hstored : storedScore memW9 = 1/2 := by norm_num [storedScore, memW9]
  have hret : defaultConfig.consolidation_threshold ≤ calculate_decay defaultConfig memW9 := by
    rw [hcalc]; norm_num [defaultConfig]
  have hsmall : ¬ 1/100 < |calculate_decay defaultConfig memW9 - storedScore memW9| := by
    rw [hcalc, hstored]; norm_num
  exact ⟨by simp, by norm_num [defaultConfig], hret, hsmall,
    ((retain_branch_write_iff_moved defaultConfig none [memW9] (by simp)
      (by norm_num [defaultConfig]) memW9 (List.mem_singleton_self memW9) hret).2.1 hsmall)⟩

/-- When the summarizer call raises (modelled by `none`), `consolidate_memory`
returns the record unchanged. -/
lemma consolidate_memory_of_raise {f : String → Option String} {m : Memory}
    (h : f (pyOr m.raw m.content_summary) = none) :
    consolidate_memory (some f) m = m := by
  simp only [consolidate_memory]
  split_ifs with hempty
  · rfl
  · simp only [h]

/-- C3 (amended): for a record in the consolidate band whose summarizer
call raises, the cycle leaves `raw`, `content_summary` and the
`consolidated` flag untouched while the score update still proceeds. -/
theorem decay_cycle_summarizer_exception_preserves_record (cfg : DecayConfig)
    (f : String → Option String) (store : List Memory)
    (hnd : (store.map Memory.id).Nodup) (m : Memory) (hm : m ∈ store)
    (hlo : cfg.forget_threshold ≤ calculate_decay cfg m)
    (hhi : calculate_decay cfg m < cfg.consolidation_threshold)
    (hflag : (m.metadata.consolidated).getD false = false)
    (hraise : f (pyOr m.raw m.content_summary) = none) :
    ∃ r ∈ (run_decay_cycle cfg (some f) store).1,
      r.raw = m.raw ∧ r.content_summary = m.content_summary ∧
      r.metadata.consolidated = m.metadata.consolidated ∧
      r.metadata.importance_score = some (calculate_decay cfg m) := by
  rw [run_decay_cycle_eq cfg (some f) store hnd]
  have h1 : ¬ calculate_decay cfg m < cfg.forget_threshold := not_lt.mpr hlo
  have hstep : decayStep cfg (some f) m = some (setScore m (calculate_decay cfg m)) := by
    simp only [decayStep, if_neg h1, if_pos hhi, if_pos hflag,
      consolidate_memory_of_raise hraise]
  exact ⟨setScore m (calculate_decay cfg m),
    List.mem_filterMap.mpr ⟨m, hm, hstep⟩, rfl, rfl, rfl, rfl⟩

/-- Consolidate-band record (score `0.3`) used for the C3 witness and
counterexample. -/
noncomputable def memW3 : Memory :=
  { id := 3, raw := "tale", content_summary := "tale", embedding := none,
    metadata := { importance_score := some (3/10), access_count := some 1,
                  timestamp := .missing, consolidated := some false } }

theorem decay_cycle_summarizer_exception_preserves_record_witness :
    ([memW3].map Memory.id).Nodup ∧
    defaultConfig.forget_threshold ≤ calculate_decay defaultConfig memW3 ∧
    calculate_decay defaultConfig memW3 < defaultConfig.consolidation_threshold ∧
    (memW3.metadata.consolidated).getD false = false ∧
    (∃ r ∈ (run_decay_cycle defaultConfig (some (fun _ => (none : Option String))) [memW3]).1,
      r.raw = memW3.raw ∧ r.content_summary = memW3.content_summary ∧
      r.metadata.consolidated = memW3.metadata.consolidated ∧
      r.metadata.importance_score = some (calculate_decay defaultConfig memW3)) := by
  have hcalc : calculate_decay defaultConfig memW3 = 3/10 := by
    rw [@calculate_decay_missing defaultConfig memW3 rfl]
    norm_num [storedScore, memW3]
  refine ⟨by simp, ?_, ?_, rfl, ?_⟩
  · rw [hcalc]; norm_num [defaultConfig]
  · rw [hcalc]; norm_num [defaultConfig]
  · exact decay_cycle_summarizer_exception_preserves_record defaultConfig
      (fun _ => (none : Option String)) [memW3] (by simp) memW3
      (List.mem_singleton_self memW3)
      (by rw [hcalc]; norm_num [defaultConfig])
      (by rw [hcalc]; norm_num [defaultConfig]) rfl rfl

/-- C3 counterexample: a summarizer that returns normally with the empty
string is treated as a success by `consolidate_memory` — the cycle
overwrites `raw`/`content_summary` with `""` and sets `consolidated`,
contradicting the claim that an empty summary leaves the record's text
fields untouched and the flag unset. -/
theorem decay_cycle_empty_summary_overwrites :
    ((run_decay_cycle defaultConfig (some (fun _ => some "")) [memW3]).1.map Memory.raw
      = [""]) ∧
    ((run_decay_cycle defaultConfig (some (fun _ => some "")) [memW3]).1.map
        (fun r => r.metadata.consolidated) = [some true]) ∧
    memW3.raw = "tale" ∧ memW3.metadata.consolidated = some false := by
  have hcalc : calculate_decay defaultConfig memW3 = 3/10 := by
    rw [@calculate_decay_missing defaultConfig memW3 rfl]
    norm_num [storedScore, memW3]
  have hband1 : ¬ calculate_decay defaultConfig memW3 < defaultConfig.forget_threshold := by
    rw [hcalc]; norm_num [defaultConfig]
  have hband2 : calculate_decay defaultConfig memW3 < defaultConfig.consolidation_threshold := by
    rw [hcalc]; norm_num [defaultConfig]
  have hcons : consolidate_memory (some (fun _ => some "")) memW3
      = { memW3 with
          raw := ""
          content_summary := ""
          metadata := { memW3.metadata with consolidated := some true } } := by
    simp only [consolidate_memory]
    rw [if_neg (by simp [memW3, pyOr])]
  simp only [run_decay_cycle, List.foldl_cons, List.foldl_nil, processOne]
  rw [if_neg hband1, if_pos hband2, if_pos (show (memW3.metadata.consolidated).getD false
    = false from rfl), hcons]
  simp [replaceById, memW3, setScore]

/-! ## Retrieval (src/memory_store.py) -/

/-- Python `set(s.lower().split())`: lowercase, split on whitespace,
drop empty pieces, collect into a set. -/
def pyTokens (s : String) : Finset String :=
  (((s.toLower).split (fun c => c.isWhitespace)).filter (fun t => t != "")).toFinset

/-- The state of a `FAISSRetriever` relevant to `retrieve`: the confidence
floor and the position-indexed record ids. -/
structure FAISSRetriever where
  min_confidence : ℝ
  memory_ids : List ℕ

/-- Python list indexing with negative-index semantics (`faiss` pads its
result rows with index `-1`, which Python's `idx < len(...)` guard lets
through and which then indexes from the back). -/
def pyGet (l : List ℕ) (i : ℤ) : ℕ :=
  if 0 ≤ i then l.getD i.toNat 0 else l.getD (l.length - (-i).toNat) 0

/-- `FAISSRetriever.retrieve` (src/memory_store.py lines 148-166), applied
to the raw `(score, index)` rows produced by `index.search`: keep, in
order, the entries whose index passes the length guard and whose score is
at least `min_confidence`, returning the id list and score list. -/
noncomputable def FAISSRetriever.retrieve (r : FAISSRetriever) :
    List (ℝ × ℤ) → List ℕ × List ℝ
  | [] => ([], [])
  | (score, idx) :: rest =>
    let acc := r.retrieve rest
    if idx < (r.memory_ids.length : ℤ) then
      if r.min_confidence ≤ score then
        (pyGet r.memory_ids idx :: acc.1, score :: acc.2)
      else acc
    else acc

/-- A result row `{**memory, "score", "debug_semantic", "debug_lexical"}`. -/
structure RetrievalResult where
  mem : Memory
  score : ℝ
  debug_semantic : ℝ
  debug_lexical : ℝ

/-- The lexical overlap score `|query ∩ content| / |query|` (0 for an
empty query token set). -/
noncomputable def lexScore (query_tokens content_tokens : Finset String) : ℝ :=
  if 0 < query_tokens.card then
    ((query_tokens ∩ content_tokens).card : ℝ) / (query_tokens.card : ℝ)
  else 0

/-- `memory["metadata"]["access_count"] = memory["metadata"].get("access_count", 1) + 1`. -/
def incAccess (memory : Memory) : Memory :=
  { memory with
      metadata := { memory.metadata with
        access_count := some ((memory.metadata.access_count).getD 1 + 1) } }

/-- The candidate loop of the indexed path of `retrieve_memories_from_ltm`
(src/memory_store.py lines 237-260): for each `(mem_id, sem_score)` pair
from the retriever, look the record up in the (shared, mutating) store,
score it, bump its `access_count` in place, and emit a result row. -/
noncomputable def indexedScan (query_tokens : Finset String) (hybrid_weight : ℝ) :
    List (ℕ × ℝ) → List Memory → List RetrievalResult × List Memory
  | [], store => ([], store)
  | (mem_id, sem_score) :: rest, store =>
    match store.find? (fun m => m.id == mem_id) with
    | none => indexedScan query_tokens hybrid_weight rest store
    | some memory =>
      let content_tokens := pyTokens (pyOr memory.content_summary memory.raw)
      let lex_score := lexScore query_tokens content_tokens
      let hybrid_score := hybrid_weight * sem_score + (1 - hybrid_weight) * lex_score
      let memory' := incAccess memory
      let acc := indexedScan query_tokens hybrid_weight rest
        (replaceById memory.id memory' store)
      ({ mem := memory', score := hybrid_score, debug_semantic := sem_score,
         debug_lexical := lex_score } :: acc.1, acc.2)

/-- `np.dot` on two equal-length float vectors. -/
noncomputable def dotList (a b : List ℝ) : ℝ := (a.zipWith (· * ·) b).sum

/-- `np.linalg.norm`. -/
noncomputable def l2norm (v : List ℝ) : ℝ := Real.sqrt (dotList v v)

/-- The scan loop of `_fallback_retrieve` (src/memory_store.py lines
274-305): every record with a non-empty embedding is cosine-scored against
the query embedding, gets its `access_count` bumped, and emits a result
row; records without an embedding are skipped untouched. -/
noncomputable def fallbackScan (query_emb : List ℝ) (query_tokens : Finset String)
    (hybrid_weight : ℝ) : List Memory → List RetrievalResult × List Memory
  | [] => ([], [])
  | memory :: rest =>
    match memory.embedding with
    | none =>
      let acc := fallbackScan query_emb query_tokens hybrid_weight rest
      (acc.1, memory :: acc.2)
    | some e =>
      if e = [] then
        let acc := fallbackScan query_emb query_tokens hybrid_weight rest
        (acc.1, memory :: acc.2)
      else
        let semantic_score := dotList query_emb e / (l2norm query_emb * l2norm e)
        let content_tokens := pyTokens (pyOr memory.content_summary memory.raw)
        let lexical_score := lexScore query_tokens content_tokens
        let hybrid_score := hybrid_weight * semantic_score
          + (1 - hybrid_weight) * lexical_score
        let memory' := incAccess memory
        let acc := fallbackScan query_emb query_tokens hybrid_weight rest
        ({ mem := memory', score := hybrid_score, debug_semantic := semantic_score,
           debug_lexical := lexical_score } :: acc.1, memory' :: acc.2)

/-- `results.sort(key=lambda x: x["score"], reverse=True)`: a stable sort
by descending hybrid score (Python's sort is stable; a stable descending
sort is extensionally unique, here given by `mergeSort`). -/
noncomputable def pySortDesc (rs : List RetrievalResult) : List RetrievalResult :=
  rs.mergeSort (fun a b => decide (b.score ≤ a.score))

/-- `_fallback_retrieve` (src/memory_store.py lines 270-308): scan, then
stable-sort descending and truncate to `top_k`. -/
noncomputable def fallback_retrieve (query_embedding : List ℝ)
    (query_tokens : Finset String) (top_k : ℕ) (hybrid_weight : ℝ)
    (store : List Memory) : List RetrievalResult × List Memory :=
  let acc := fallbackScan query_embedding query_tokens hybrid_weight store
  ((pySortDesc acc.1).take top_k, acc.2)

/-- `retrieve_memories_from_ltm` (src/memory_store.py lines 211-267).
External inputs are passed in explicitly: `search` is the raw output of
`index.search(query_vec, top_k * 2)` (the over-fetch factor lives in that
call), `query_embedding` the output of `generate_embedding(query)`, and
`useIndexed` the condition `use_faiss and FAISS_AVAILABLE and index is not None`. -/
noncomputable def retrieve_memories_from_ltm (retr : FAISSRetriever)
    (search : List (ℝ × ℤ)) (query_embedding : List ℝ) (useIndexed : Bool)
    (query : String) (top_k : ℕ) (hybrid_weight : ℝ) (store : List Memory) :
    List RetrievalResult × List Memory :=
  if store.isEmpty then ([], store)
  else
    let query_tokens := pyTokens query
    if useIndexed then
      let fo := retr.retrieve search
      let acc := indexedScan query_tokens hybrid_weight (fo.1.zip fo.2) store
      ((pySortDesc acc.1).take top_k, acc.2)
    else
      fallback_retrieve query_embedding query_tokens top_k hybrid_weight store

/-- Per-record effect of the linear-scan path on the store: records with a
non-empty embedding get their access count bumped, others are untouched. -/
noncomputable def fallbackTouched (memory : Memory) : Memory :=
  match memory.embedding with
  | none => memory
  | some e => if e = [] then memory else incAccess memory

lemma pySortDesc_sorted (rs : List RetrievalResult) :
    (pySortDesc rs).Pairwise (fun a b => b.score ≤ a.score) := by
  have h : (rs.mergeSort (fun a b : RetrievalResult => decide (b.score ≤ a.score))).Pairwise
      (fun a b : RetrievalResult => decide (b.score ≤ a.score) = true) := by
    apply List.sorted_mergeSort
    · intro a b c hab hbc
      simp only [decide_eq_true_eq] at hab hbc ⊢
      exact le_trans hbc hab
    · intro a b
      simp only [Bool.or_eq_true, decide_eq_true_eq]
      exact le_total b.score a.score
  unfold pySortDesc
  exact h.imp (fun hab => of_decide_eq_true hab)

lemma pySortDesc_perm (rs : List RetrievalResult) : (pySortDesc rs).Perm rs :=
  List.mergeSort_perm rs _

/-- Stability of the Python sort: a run of equal-score results keeps its
original relative order. -/
lemma pySortDesc_stable (rs c : List RetrievalResult)
    (hc : c.Pairwise (fun a b => a.score = b.score)) (hsub : c.Sublist rs) :
    c.Sublist (pySortDesc rs) := by
  refine List.sublist_mergeSort
    (fun a b x hab hbc => by
      simp only [decide_eq_true_eq] at hab hbc ⊢
      exact le_trans hbc hab)
    (fun a b => by
      simp only [Bool.or_eq_true, decide_eq_true_eq]
      exact le_total b.score a.score)
    ?_ hsub
  exact hc.imp (fun h => decide_eq_true (le_of_eq h.symm))

lemma retrieve_result_eq (retr : FAISSRetriever) (search : List (ℝ × ℤ))
    (qe : List ℝ) (useIdx : Bool) (query : String) (top_k : ℕ) (w : ℝ)
    (store : List Memory) :
    (retrieve_memories_from_ltm retr search qe useIdx query top_k w store).1
      = if store.isEmpty then []
        else if useIdx then
          (pySortDesc (indexedScan (pyTokens query) w
            ((retr.retrieve search).1.zip (retr.retrieve search).2) store).1).take top_k
        else (pySortDesc (fallbackScan qe (pyTokens query) w store).1).take top_k := by
  simp only [retrieve_memories_from_ltm, fallback_retrieve]
  split_ifs <;> rfl

lemma retrieve_store_eq (retr : FAISSRetriever) (search : List (ℝ × ℤ))
    (qe : List ℝ) (useIdx : Bool) (query : String) (top_k : ℕ) (w : ℝ)
    (store : List Memory) :
    (retrieve_memories_from_ltm retr search qe useIdx query top_k w store).2
      = if store.isEmpty then store
        else if useIdx then
          (indexedScan (pyTokens query) w
            ((retr.retrieve search).1.zip (retr.retrieve search).2) store).2
        else (fallbackScan qe (pyTokens query) w store).2 := by
  simp only [retrieve_memories_from_ltm, fallback_retrieve]
  split_ifs <;> rfl

/-- C6: retrieval returns at most `top_k` results, sorted by descending
hybrid score; both paths are the truncation of the stable descending sort
of their candidate lists, and the sort keeps equal-score runs in original
candidate order. -/
theorem retrieval_topk_sorted_stable (retr : FAISSRetriever) (search : List (ℝ × ℤ))
    (query_embedding : List ℝ) (useIndexed : Bool) (query : String) (top_k : ℕ)
    (hybrid_weight : ℝ) (store : List Memory) :
    (retrieve_memories_from_ltm retr search query_embedding useIndexed query top_k
        hybrid_weight store).1.length ≤ top_k ∧
    (retrieve_memories_from_ltm retr search query_embedding useIndexed query top_k
        hybrid_weight store).1.Pairwise (fun a b => b.score ≤ a.score) ∧
    (∀ cands c : List RetrievalResult, c.Pairwise (fun a b => a.score = b.score) →
        c.Sublist cands →
        (pySortDesc cands).Perm cands ∧ c.Sublist (pySortDesc cands)) ∧
    (useIndexed = true → store.isEmpty = false →
        (retrieve_memories_from_ltm retr search query_embedding useIndexed query top_k
            hybrid_weight store).1
          = (pySortDesc (indexedScan (pyTokens query) hybrid_weight
              ((retr.retrieve search).1.zip (retr.retrieve search).2) store).1).take top_k) ∧
    (useIndexed = false → store.isEmpty = false →
        (retrieve_memories_from_ltm retr search query_embedding useIndexed query top_k
            hybrid_weight store).1
          = (pySortDesc (fallbackScan query_embedding (pyTokens query)
              hybrid_weight store).1).take top_k) := by
  have h := retrieve_result_eq retr search query_embedding useIndexed query top_k
    hybrid_weight store
  refine ⟨?_, ?_, ?_, ?_, ?_⟩
  · rw [h]
    split_ifs
    · simp
    · exact List.length_take_le top_k _
    · exact List.length_take_le top_k _
  · rw [h]
    split_ifs
    · simp
    · exact List.Pairwise.sublist (List.take_sublist top_k _) (pySortDesc_sorted _)
    · exact List.Pairwise.sublist (List.take_sublist top_k _) (pySortDesc_sorted _)
  · intro cands c hc hsub
    exact ⟨pySortDesc_perm cands, pySortDesc_stable cands c hc hsub⟩
  · intro h1 h2
    rw [h, h1, h2]
    simp
  · intro h1 h2
    rw [h, h1, h2]
    simp

/-- Every `(id, score)` pair emitted by `FAISSRetriever.retrieve` has its
score at or above the confidence floor. -/
lemma retrieve_scores_ge (r : FAISSRetriever) :
    ∀ (search : List (ℝ × ℤ)),
      ∀ p ∈ (r.retrieve search).1.zip (r.retrieve search).2, r.min_confidence ≤ p.2
  | [], p, hp => by simp [FAISSRetriever.retrieve] at hp
  | (score, idx) :: rest, p, hp => by
    simp only [FAISSRetriever.retrieve] at hp
    split_ifs at hp with h1 h2
    · simp only [List.zip_cons_cons, List.mem_cons] at hp
      rcases hp with rfl | hp
      · exact h2
      · exact retrieve_scores_ge r rest p hp
    · exact retrieve_scores_ge r rest p hp
    · exact retrieve_scores_ge r rest p hp

/-- Every result row the indexed scan emits carries the semantic score of
one of its input pairs. -/
lemma indexedScan_dsem (qt : Finset String) (w : ℝ) :
    ∀ (pairs : List (ℕ × ℝ)) (store : List Memory),
      ∀ res ∈ (indexedScan qt w pairs store).1, ∃ p ∈ pairs, res.debug_semantic = p.2
  | [], store, res, h => by simp [indexedScan] at h
  | (mem_id, sem) :: rest, store, res, h => by
    simp only [indexedScan] at h
    cases hf : store.find? (fun m => m.id == mem_id) with
    | none =>
      simp only [hf] at h
      obtain ⟨p, hp, he⟩ := indexedScan_dsem qt w rest store res h
      exact ⟨p, List.mem_cons_of_mem _ hp, he⟩
    | some memory =>
      simp only [hf, List.mem_cons] at h
      rcases h with rfl | h
      · exact ⟨(mem_id, sem), List.mem_cons_self _ _, rfl⟩
      · obtain ⟨p, hp, he⟩ := indexedScan_dsem qt w rest
          (replaceById memory.id (incAccess memory) store) res h
        exact ⟨p, List.mem_cons_of_mem _ hp, he⟩

/-- C7: every result of the indexed retrieval path has its semantic
component at or above the retriever's `min_confidence` floor. -/
theorem indexed_retrieval_confidence_floor (retr : FAISSRetriever)
    (search : List (ℝ × ℤ)) (query_embedding : List ℝ) (query : String)
    (top_k : ℕ) (hybrid_weight : ℝ) (store : List Memory)
    (res : RetrievalResult)
    (hres : res ∈ (retrieve_memories_from_ltm retr search query_embedding true query
        top_k hybrid_weight store).1) :
    retr.min_confidence ≤ res.debug_semantic := by
  rw [retrieve_result_eq] at hres
  split_ifs at hres with hemp hidx
  · exact absurd hres (List.not_mem_nil res)
  case neg => exact absurd rfl hidx
  · have h1 : res ∈ pySortDesc (indexedScan (pyTokens query) hybrid_weight
        ((retr.retrieve search).1.zip (retr.retrieve search).2) store).1 :=
      (List.take_sublist top_k _).mem hres
    have h2 : res ∈ (indexedScan (pyTokens query) hybrid_weight
        ((retr.retrieve search).1.zip (retr.retrieve search).2) store).1 :=
      (pySortDesc_perm _).mem_iff.mp h1
    obtain ⟨p, hp, he⟩ := indexedScan_dsem (pyTokens query) hybrid_weight _ store res h2
    rw [he]
    exact retrieve_scores_ge retr search p hp

lemma incAccess_id (m : Memory) : (incAccess m).id = m.id := rfl

lemma map_id_replaceById {nm : Memory} {memId : ℕ} (h : nm.id = memId) :
    ∀ (l : List Memory), (replaceById memId nm l).map Memory.id = l.map Memory.id
  | [] => rfl
  | m :: rest => by
    simp only [replaceById]
    split_ifs with hc
    · simp [h, hc]
    · simp [map_id_replaceById h rest]

lemma mem_replaceById_self {m nm : Memory} {memId : ℕ} (hid : m.id = memId) :
    ∀ {l : List Memory}, m ∈ l → nm ∈ replaceById memId nm l
  | [], h => absurd h (List.not_mem_nil m)
  | a :: rest, h => by
    simp only [replaceById]
    split_ifs with hc
    · exact List.mem_cons_self _ _
    · rcases List.mem_cons.mp h with rfl | h
      · exact absurd hid hc
      · exact List.mem_cons_of_mem _ (mem_replaceById_self hid h)

lemma mem_replaceById_of_ne {m nm : Memory} {memId : ℕ} (hid : m.id ≠ memId) :
    ∀ {l : List Memory}, m ∈ l → m ∈ replaceById memId nm l
  | [], h => absurd h (List.not_mem_nil m)
  | a :: rest, h => by
    simp only [replaceById]
    split_ifs with hc
    · rcases List.mem_cons.mp h with rfl | h
      · exact absurd hc hid
      · exact List.mem_cons_of_mem _ h
    · rcases List.mem_cons.mp h with rfl | h
      · exact List.mem_cons_self _ _
      · exact List.mem_cons_of_mem _ (mem_replaceById_of_ne hid h)

/-- Store effect of the indexed scan: with distinct store ids and distinct
candidate ids, every record whose id occurs among the candidate pairs has
its `access_count` bumped exactly once, all other records are untouched. -/
lemma indexedScan_access (qt : Finset String) (w : ℝ) :
    ∀ (pairs : List (ℕ × ℝ)) (store : List Memory),
      (store.map Memory.id).Nodup → (pairs.map Prod.fst).Nodup →
      ∀ m ∈ store,
        (m.id ∈ pairs.map Prod.fst → incAccess m ∈ (indexedScan qt w pairs store).2) ∧
        (m.id ∉ pairs.map Prod.fst → m ∈ (indexedScan qt w pairs store).2)
  | [], store, _, _, m, hm => by
    simp only [indexedScan, List.map_nil]
    exact ⟨fun h => absurd h (List.not_mem_nil _), fun _ => hm⟩
  | (mem_id, sem) :: rest, store, hnds, hndp, m, hm => by
    have hndrest : (rest.map Prod.fst).Nodup := (List.nodup_cons.mp hndp).2
    have hmidrest : mem_id ∉ rest.map Prod.fst := (List.nodup_cons.mp hndp).1
    simp only [indexedScan]
    cases hf : store.find? (fun x => x.id == mem_id) with
    | none =>
      simp only [hf]
      have hno : m.id ≠ mem_id := by
        intro he
        have := List.find?_eq_none.mp hf m hm
        simp [he] at this
      have ih := indexedScan_access qt w rest store hnds hndrest m hm
      constructor
      · intro hin
        simp only [List.map_cons, List.mem_cons] at hin
        rcases hin with h | h
        · exact absurd h hno
        · exact ih.1 h
      · intro hnin
        refine ih.2 (fun hc => hnin ?_)
        simp only [List.map_cons, List.mem_cons]
        exact Or.inr hc
    | some memory =>
      have hmem : memory ∈ store := List.mem_of_find?_eq_some hf
      have hmid : memory.id = mem_id := by
        have := List.find?_some hf
        simpa using this
      simp only [hf]
      have hnds' : ((replaceById memory.id (incAccess memory) store).map Memory.id).Nodup := by
        rw [map_id_replaceById (incAccess_id memory)]
        exact hnds
      by_cases hmm : m.id = mem_id
      · have hm_eq : m = memory :=
          List.inj_on_of_nodup_map hnds hm hmem (by rw [hmm, hmid])
        subst hm_eq
        constructor
        · intro _
          have hinc : incAccess m ∈ replaceById m.id (incAccess m) store :=
            mem_replaceById_self rfl hm
          have ih := indexedScan_access qt w rest (replaceById m.id (incAccess m) store)
            hnds' hndrest (incAccess m) hinc
          refine ih.2 (fun hc => ?_)
          rw [incAccess_id, hmm] at hc
          exact hmidrest hc
        · intro hnin
          exact absurd (by simp [hmm]) hnin
      · have hmne : m.id ≠ memory.id := by rw [hmid]; exact hmm
        have hm' : m ∈ replaceById memory.id (incAccess memory) store :=
          mem_replaceById_of_ne hmne hm
        have ih := indexedScan_access qt w rest
          (replaceById memory.id (incAccess memory) store) hnds' hndrest m hm'
        constructor
        · intro hin
          simp only [List.map_cons, List.mem_cons] at hin
          rcases hin with h | h
          · exact absurd h hmm
          · exact ih.1 h
        · intro hnin
          refine ih.2 (fun hc => hnin ?_)
          simp only [List.map_cons, List.mem_cons]
          exact Or.inr hc

/-- Store effect of the linear scan: the store maps through
`fallbackTouched` record by record. -/
lemma fallbackScan_store (qe : List ℝ) (qt : Finset String) (w : ℝ) :
    ∀ (store : List Memory), (fallbackScan qe qt w store).2 = store.map fallbackTouched
  | [] => rfl
  | memory :: rest => by
    cases he : memory.embedding with
    | none =>
      simp only [fallbackScan, he, List.map_cons, fallbackTouched]
      rw [fallbackScan_store qe qt w rest]
    | some e =>
      by_cases hc : e = []
      · simp only [fallbackScan, he, List.map_cons, fallbackTouched, if_pos hc]
        rw [fallbackScan_store qe qt w rest]
      · simp only [fallbackScan, he, List.map_cons, fallbackTouched, if_neg hc]
        rw [fallbackScan_store qe qt w rest]

lemma retrieve_length_eq (r : FAISSRetriever) :
    ∀ (search : List (ℝ × ℤ)), (r.retrieve search).1.length = (r.retrieve search).2.length
  | [] => rfl
  | (score, idx) :: rest => by
    simp only [FAISSRetriever.retrieve]
    split_ifs
    · simp [retrieve_length_eq r rest]
    · exact retrieve_length_eq r rest
    · exact retrieve_length_eq r rest

lemma retrieve_zip_map_fst (r : FAISSRetriever) (search : List (ℝ × ℤ)) :
    ((r.retrieve search).1.zip (r.retrieve search).2).map Prod.fst
      = (r.retrieve search).1 :=
  List.map_fst_zip _ _ (le_of_eq (retrieve_length_eq r search))

/-- C8: during retrieval, every scored record has `access_count` bumped by
exactly one — in the indexed path every record whose id the retriever
returned, in the linear-scan path every record with a non-empty embedding —
independently of `top_k` (so scored-but-not-returned records are bumped
too), and unscored records are untouched. -/
theorem retrieval_increments_access_count (retr : FAISSRetriever)
    (search : List (ℝ × ℤ)) (query_embedding : List ℝ) (query : String)
    (top_k : ℕ) (hybrid_weight : ℝ) (store : List Memory)
    (hnd : (store.map Memory.id).Nodup)
    (hfnd : (retr.retrieve search).1.Nodup) :
    (∀ m ∈ store,
        (m.id ∈ (retr.retrieve search).1 →
          incAccess m ∈ (retrieve_memories_from_ltm retr search query_embedding true
              query top_k hybrid_weight store).2) ∧
        (m.id ∉ (retr.retrieve search).1 →
          m ∈ (retrieve_memories_from_ltm retr search query_embedding true
              query top_k hybrid_weight store).2)) ∧
    ((retrieve_memories_from_ltm retr search query_embedding false query top_k
        hybrid_weight store).2 = store.map fallbackTouched) ∧
    (∀ k k' : ℕ,
        (retrieve_memories_from_ltm retr search query_embedding true query k
            hybrid_weight store).2
          = (retrieve_memories_from_ltm retr search query_embedding true query k'
              hybrid_weight store).2 ∧
        (retrieve_memories_from_ltm retr search query_embedding false query k
            hybrid_weight store).2
          = (retrieve_memories_from_ltm retr search query_embedding false query k'
              hybrid_weight store).2) := by
  have hpairs : (((retr.retrieve search).1.zip (retr.retrieve search).2).map Prod.fst).Nodup := by
    rw [retrieve_zip_map_fst]
    exact hfnd
  refine ⟨?_, ?_, ?_⟩
  · intro m hm
    have hemp : store.isEmpty = false := by
      cases hstore : store with
      | nil => rw [hstore] at hm; exact absurd hm (List.not_mem_nil m)
      | cons a t => rfl
    rw [retrieve_store_eq, hemp]
    simp only [Bool.false_eq_true, if_false, if_true]
    have ih := indexedScan_access (pyTokens query) hybrid_weight
      ((retr.retrieve search).1.zip (retr.retrieve search).2) store hnd hpairs m hm
    rw [retrieve_zip_map_fst] at ih
    exact ih
  · rw [retrieve_store_eq]
    cases hstore : store with
    | nil => simp
    | cons a t =>
      simp only [List.isEmpty_cons, Bool.false_eq_true, if_false]
      exact fallbackScan_store query_embedding (pyTokens query) hybrid_weight (a :: t)
  · intro k k'
    constructor
    · rw [retrieve_store_eq, retrieve_store_eq]
    · rw [retrieve_store_eq, retrieve_store_eq]

/-- Concrete record with an embedding, for the retrieval witnesses. -/
noncomputable def memA : Memory :=
  { id := 7, raw := "alpha story", content_summary := "alpha story",
    embedding := some [1, 0],
    metadata := { importance_score := some (1/2), access_count := some 1,
                  timestamp := .missing, consolidated := some false } }

/-- Concrete record without an embedding, for the retrieval witnesses. -/
noncomputable def memB : Memory :=
  { id := 8, raw := "beta", content_summary := "beta", embedding := none,
    metadata := { importance_score := some (1/2), access_count := some 2,
                  timestamp := .missing, consolidated := some false } }

/-- Concrete retriever with the default `min_confidence = 0.45`. -/
noncomputable def retrW : FAISSRetriever :=
  { min_confidence := 45/100, memory_ids := [7, 8] }

lemma retrW_retrieve_eq :
    retrW.retrieve [((1:ℝ)/2, (0:ℤ))] = ([7], [1/2]) := by
  norm_num [FAISSRetriever.retrieve, retrW, pyGet]

/-- The single result row produced by the witness retrieval. -/
noncomputable def resW7 : RetrievalResult :=
  { mem := incAccess memA
    score := 7/10 * ((1:ℝ)/2)
      + (1 - 7/10) * lexScore (pyTokens "q") (pyTokens (pyOr memA.content_summary memA.raw))
    debug_semantic := (1:ℝ)/2
    debug_lexical := lexScore (pyTokens "q") (pyTokens (pyOr memA.content_summary memA.raw)) }

lemma retrieve_W7_result :
    (retrieve_memories_from_ltm retrW [((1:ℝ)/2, (0:ℤ))] [] true "q" 5 (7/10) [memA]).1
      = [resW7] := by
  have h := retrieve_result_eq retrW [((1:ℝ)/2, (0:ℤ))] [] true "q" 5 (7/10) [memA]
  rw [if_neg (by simp), if_pos rfl, retrW_retrieve_eq] at h
  rw [h]
  have hfind : ([memA].find? (fun m => m.id == 7)) = some memA := by
    simp [List.find?, memA]
  have hscan : indexedScan (pyTokens "q") (7/10) (([7] : List ℕ).zip ([1/2] : List ℝ)) [memA]
      = ([resW7], [incAccess memA]) := by
    simp only [List.zip_cons_cons, List.zip_nil_right, indexedScan, hfind]
    simp [replaceById, resW7]
  rw [hscan]
  simp [pySortDesc]

theorem retrieval_topk_sorted_stable_witness :
    (retrieve_memories_from_ltm retrW [((1:ℝ)/2, (0:ℤ))] [] true "q" 5 (7/10) [memA]).1.length
        ≤ 5 ∧
    (retrieve_memories_from_ltm retrW [((1:ℝ)/2, (0:ℤ))] [] true "q" 5 (7/10)
        [memA]).1.Pairwise (fun a b => b.score ≤ a.score) ∧
    (retrieve_memories_from_ltm retrW [((1:ℝ)/2, (0:ℤ))] [] true "q" 5 (7/10) [memA]).1
      = (pySortDesc (indexedScan (pyTokens "q") (7/10)
          ((retrW.retrieve [((1:ℝ)/2, (0:ℤ))]).1.zip (retrW.retrieve [((1:ℝ)/2, (0:ℤ))]).2)
          [memA]).1).take 5 := by
  have h := retrieval_topk_sorted_stable retrW [((1:ℝ)/2, (0:ℤ))] [] true "q" 5 (7/10) [memA]
  exact ⟨h.1, h.2.1, h.2.2.2.1 rfl rfl⟩

theorem indexed_retrieval_confidence_floor_witness :
    resW7 ∈ (retrieve_memories_from_ltm retrW [((1:ℝ)/2, (0:ℤ))] [] true "q" 5 (7/10)
        [memA]).1 ∧
    retrW.min_confidence ≤ resW7.debug_semantic := by
  have hmem : resW7 ∈ (retrieve_memories_from_ltm retrW [((1:ℝ)/2, (0:ℤ))] [] true "q" 5
      (7/10) [memA]).1 := by
    rw [retrieve_W7_result]
    exact List.mem_singleton_self resW7
  exact ⟨hmem, indexed_retrieval_confidence_floor retrW [((1:ℝ)/2, (0:ℤ))] [] "q" 5 (7/10)
    [memA] resW7 hmem⟩

theorem retrieval_increments_access_count_witness :
    (([memA, memB].map Memory.id).Nodup) ∧
    ((retrW.retrieve [((1:ℝ)/2, (0:ℤ))]).1.Nodup) ∧
    incAccess memA ∈ (retrieve_memories_from_ltm retrW [((1:ℝ)/2, (0:ℤ))] [] true "q" 5
        (7/10) [memA, memB]).2 ∧
    memB ∈ (retrieve_memories_from_ltm retrW [((1:ℝ)/2, (0:ℤ))] [] true "q" 5
        (7/10) [memA, memB]).2 ∧
    (retrieve_memories_from_ltm retrW [((1:ℝ)/2, (0:ℤ))] [] false "q" 5 (7/10)
        [memA, memB]).2 = [memA, memB].map fallbackTouched := by
  have hnd : ([memA, memB].map Memory.id).Nodup := by simp [memA, memB]
  have hids : (retrW.retrieve [((1:ℝ)/2, (0:ℤ))]).1 = [7] := by rw [retrW_retrieve_eq]
  have hfnd : (retrW.retrieve [((1:ℝ)/2, (0:ℤ))]).1.Nodup := by rw [hids]; simp
  have h := retrieval_increments_access_count retrW [((1:ℝ)/2, (0:ℤ))] [] "q" 5 (7/10)
    [memA, memB] hnd hfnd
  refine ⟨hnd, hfnd, ?_, ?_, h.2.1⟩
  · exact (h.1 memA (by simp)).1 (by rw [hids]; simp [memA])
  · exact (h.1 memB (by simp)).2 (by rw [hids]; simp [memB])

end NarrativeMemory
